import Mathlib

/-! BH1750 light-sensor driver (`BH1750.c`, `BH1750.h`)

A shallow embedding of the driver and proofs about the byte sequences it
puts on the I2C bus.

* `uint8_t` / `uint16_t` values are natural numbers; every place where C
  stores into a fixed-width object carries an explicit `% 2 ^ w`.
* The platform I2C driver (`HAL_I2C_Master_Transmit`,
  `HAL_I2C_Master_Receive`) is not part of the repository.  It is modelled
  as an arbitrary responder carried by the bus handle, together with the
  list of calls made so far, so that "issues exactly one call" and
  "issues no call" are statements about that list.
* `float` / `double` values are finite binary floating-point numbers
  `(-1)^neg * mant * 2^exp` with exact integer fields; each C operation
  that rounds is an explicit round-to-nearest, ties-to-even step.
-/

namespace BH1750

/-! ## The transport interface -/

/-- Status codes of the STM32 HAL (`HAL_StatusTypeDef`). -/
inductive HAL_StatusTypeDef where
  | HAL_OK
  | HAL_ERROR
  | HAL_BUSY
  | HAL_TIMEOUT
  deriving DecidableEq, Repr

open HAL_StatusTypeDef

/-- One call into the platform I2C driver, as it appears at the interface:
the addressing byte, the bytes handed over (transmit only), the length and
the timeout. -/
inductive I2CCall where
  | transmit (devAddress : Nat) (pData : List Nat) (size : Nat) (timeout : Nat)
  | receive (devAddress : Nat) (size : Nat) (timeout : Nat)
  deriving DecidableEq, Repr

/-- The bus handle (`I2C_HandleTypeDef`).  `calls` is the history of calls,
oldest first.  `onTransmit` and `onReceive` are the (arbitrary) behaviour of
the platform driver: given the history and the present call they fix the
status returned and, for a receive, the contents of the caller's buffer
after the call. -/
structure I2C_HandleTypeDef where
  calls : List I2CCall
  onTransmit : List I2CCall → I2CCall → HAL_StatusTypeDef
  onReceive : List I2CCall → I2CCall → HAL_StatusTypeDef × List Nat

/-- Blocking write of the first `size` bytes of `pData`. -/
def HAL_I2C_Master_Transmit (hi2c : I2C_HandleTypeDef) (devAddress : Nat)
    (pData : List Nat) (size timeout : Nat) : HAL_StatusTypeDef × I2C_HandleTypeDef :=
  let call := I2CCall.transmit devAddress (pData.take size) size timeout
  (hi2c.onTransmit hi2c.calls call, { hi2c with calls := hi2c.calls ++ [call] })

/-- Blocking read of `size` bytes; returns the status, the buffer contents
after the call, and the handle. -/
def HAL_I2C_Master_Receive (hi2c : I2C_HandleTypeDef) (devAddress : Nat)
    (size timeout : Nat) : HAL_StatusTypeDef × List Nat × I2C_HandleTypeDef :=
  let call := I2CCall.receive devAddress size timeout
  let r := hi2c.onReceive hi2c.calls call
  (r.1, r.2, { hi2c with calls := hi2c.calls ++ [call] })

/-! ## Constants of `BH1750.c` and `BH1750.h` -/

def I2C_READ_BIT : Nat := 0x01
def I2C_WRITE_BIT : Nat := 0x00
def I2C_BH1750_ADDRESS : Nat := 0x23
def BH1750_POWER_DOWN : Nat := 0x00
def BH1750_POWER_ON : Nat := 0x01
def BH1750_RESET : Nat := 0x07

def BH1750_CONT_HIRES_MODE : Nat := 0x10
def BH1750_CONT_HIRES2_MODE : Nat := 0x11
def BH1750_CONT_LOWRES_MODE : Nat := 0x12
def BH1750_OT_HIRES_MODE : Nat := 0x20
def BH1750_OT_HIRES2_MODE : Nat := 0x21
def BH1750_OT_LOWRES_MODE : Nat := 0x22

/-! ## Command functions -/

/-- `BHI1750Reset`: one byte `BH1750_RESET` to the write address. -/
def BHI1750Reset (hi2c : I2C_HandleTypeDef) : HAL_StatusTypeDef × I2C_HandleTypeDef :=
  let send_buffer := BH1750_RESET
  HAL_I2C_Master_Transmit hi2c ((I2C_BH1750_ADDRESS <<< 1) ||| I2C_WRITE_BIT) [send_buffer] 1 20

/-- `BHI1750PowerOn`: one byte `BH1750_POWER_ON` to the write address. -/
def BHI1750PowerOn (hi2c : I2C_HandleTypeDef) : HAL_StatusTypeDef × I2C_HandleTypeDef :=
  let send_buffer := BH1750_POWER_ON
  HAL_I2C_Master_Transmit hi2c ((I2C_BH1750_ADDRESS <<< 1) ||| I2C_WRITE_BIT) [send_buffer] 1 20

/-- `BHI1750SetResolution`: range check, then the two MTreg bytes in one
transmit.  The two stores into `send_buffer` are `uint8_t` stores. -/
def BHI1750SetResolution (hi2c : I2C_HandleTypeDef) (resolution : Nat) :
    HAL_StatusTypeDef × I2C_HandleTypeDef :=
  if (resolution < 31) || (resolution > 254) then (HAL_ERROR, hi2c)
  else
    let send_buffer0 := 0b01000000
    let send_buffer1 := 0b01100000
    let send_buffer0 := (send_buffer0 ||| (resolution >>> 5)) % 2 ^ 8
    let send_buffer1 := (send_buffer1 ||| (resolution &&& 0b00011111)) % 2 ^ 8
    HAL_I2C_Master_Transmit hi2c ((I2C_BH1750_ADDRESS <<< 1) ||| I2C_WRITE_BIT)
      [send_buffer0, send_buffer1] 2 20

/-- `BHI1750StartContinuous`: the guard is the source's expression
`(!(mode == A) || (mode == B) || (mode == C))`, with `!` applying to the
first comparison only. -/
def BHI1750StartContinuous (hi2c : I2C_HandleTypeDef) (mode : Nat) :
    HAL_StatusTypeDef × I2C_HandleTypeDef :=
  if ((!(mode == BH1750_CONT_HIRES_MODE)) || (mode == BH1750_CONT_HIRES2_MODE)
      || (mode == BH1750_CONT_LOWRES_MODE)) then (HAL_ERROR, hi2c)
  else
    HAL_I2C_Master_Transmit hi2c ((I2C_BH1750_ADDRESS <<< 1) ||| I2C_WRITE_BIT) [mode] 1 20

/-- `BHI1750StartSingle`: same guard shape over the one-time constants. -/
def BHI1750StartSingle (hi2c : I2C_HandleTypeDef) (mode : Nat) :
    HAL_StatusTypeDef × I2C_HandleTypeDef :=
  if ((!(mode == BH1750_OT_HIRES_MODE)) || (mode == BH1750_OT_HIRES2_MODE)
      || (mode == BH1750_OT_LOWRES_MODE)) then (HAL_ERROR, hi2c)
  else
    HAL_I2C_Master_Transmit hi2c ((I2C_BH1750_ADDRESS <<< 1) ||| I2C_WRITE_BIT) [mode] 1 20

/-! ## Floating-point values

`BHI1750GetLightValueLx` computes in `double` and returns a `float`.  Both are
modelled exactly: a value is a sign, an integer significand and a binary
exponent, and rounding to a `p`-bit significand is round-to-nearest,
ties-to-even (the default IEEE-754 mode).  The exponent is not bounded; every
value the driver produces is `0`, `-1` or lies between `1.2` and `78642`, far
inside the normal range of both formats. -/

/-- A finite binary floating-point value `(-1)^neg * mant * 2^exp`. -/
structure CFloat where
  neg : Bool
  mant : Nat
  exp : Int
  deriving DecidableEq, Repr

/-- The rational number a `CFloat` stands for. -/
def CFloat.toRat (x : CFloat) : ℚ :=
  (if x.neg then -1 else 1) * (x.mant : ℚ) * (2 : ℚ) ^ x.exp

/-- Number of significant bits of `n`, by halving at most `fuel` times. -/
def bitLengthAux : Nat → Nat → Nat
  | 0, _ => 0
  | fuel + 1, n => if n = 0 then 0 else bitLengthAux fuel (n / 2) + 1

/-- Number of significant bits of `n` (`0` for `0`). -/
def bitLength (n : Nat) : Nat := bitLengthAux n n

/-- The quotient of `m` by `2^s`, rounded to nearest, ties to even: `q` is
the truncated quotient, `r` the discarded part and `half` half a unit of `q`. -/
def roundShift (m s : Nat) : Nat :=
  let q := m >>> s
  let r := m % 2 ^ s
  let half := 2 ^ (s - 1)
  if r > half ∨ (r = half ∧ q % 2 = 1) then q + 1 else q

/-- Round to a significand of exactly `p` bits, to nearest, ties to even.
A significand shorter than `p` bits is shifted left (exact); a longer one is
divided by `2^s` with rounding, and a carry out of the top bit renormalises. -/
def roundBits (p : Nat) (x : CFloat) : CFloat :=
  if x.mant = 0 then ⟨x.neg, 0, 0⟩
  else
    let len := bitLength x.mant
    if len ≤ p then ⟨x.neg, x.mant <<< (p - len), x.exp - ((p - len : Nat) : Int)⟩
    else
      let s := len - p
      let q1 := roundShift x.mant s
      if q1 = 2 ^ p then ⟨x.neg, 2 ^ (p - 1), x.exp + (s : Int) + 1⟩
      else ⟨x.neg, q1, x.exp + (s : Int)⟩

/-- Conversion of a non-negative C integer to `double` (53-bit significand). -/
def intToDouble (n : Nat) : CFloat := roundBits 53 ⟨false, n, 0⟩

/-- Product of two `double`s: the exact product, rounded to 53 bits. -/
def mulDouble (a b : CFloat) : CFloat :=
  roundBits 53 ⟨xor a.neg b.neg, a.mant * b.mant, a.exp + b.exp⟩

/-- Conversion of a `double` to `float` (24-bit significand). -/
def doubleToFloat (x : CFloat) : CFloat := roundBits 24 x

/-- `BH1750_CONVERSION_FACTOR`, the `double` literal `1.2`: the 53-bit value
nearest to 6/5, `0x3FF3333333333333 = 5404319552844595 * 2^-52`. -/
def BH1750_CONVERSION_FACTOR : CFloat := ⟨false, 5404319552844595, -52⟩

/-- `BHI1750GetLightValueLx`: one two-byte receive from the read address.  On
`HAL_OK` the bytes are combined as `(receive_buffer[0] << 8) | receive_buffer[1]`
into a `uint16_t`, converted to `double`, multiplied by the conversion factor
and narrowed to `float`; otherwise the `double` literal `-1.0` is narrowed to
`float` and returned.  Buffer elements are `uint8_t`. -/
def BHI1750GetLightValueLx (hi2c : I2C_HandleTypeDef) : CFloat × I2C_HandleTypeDef :=
  let res := HAL_I2C_Master_Receive hi2c ((I2C_BH1750_ADDRESS <<< 1) ||| I2C_READ_BIT) 2 20
  if res.1 = HAL_OK then
    let receive_buffer := res.2.1
    let light_received :=
      (((receive_buffer.getD 0 0 % 2 ^ 8) <<< 8) ||| (receive_buffer.getD 1 0 % 2 ^ 8)) % 2 ^ 16
    let lightLx := doubleToFloat (mulDouble (intToDouble light_received) BH1750_CONVERSION_FACTOR)
    (lightLx, res.2.2)
  else
    (doubleToFloat ⟨true, 1, 0⟩, res.2.2)

/-! ## Helper facts -/

/-- The write address `(0x23 << 1) | 0` is `0x46`. -/
theorem write_address_eq : (I2C_BH1750_ADDRESS <<< 1) ||| I2C_WRITE_BIT = 0x46 := by decide

/-- The read address `(0x23 << 1) | 1` is `0x47`. -/
theorem read_address_eq : (I2C_BH1750_ADDRESS <<< 1) ||| I2C_READ_BIT = 0x47 := by decide

set_option maxRecDepth 100000 in
/-- Storing the first MTreg byte into a `uint8_t` never truncates. -/
theorem mtreg_byte0_fits : ∀ r < 256, (0b01000000 ||| (r >>> 5)) % 2 ^ 8 = 0b01000000 ||| (r >>> 5) := by
  decide

set_option maxRecDepth 100000 in
/-- Storing the second MTreg byte into a `uint8_t` never truncates. -/
theorem mtreg_byte1_fits :
    ∀ r < 256, (0b01100000 ||| (r &&& 0b00011111)) % 2 ^ 8 = 0b01100000 ||| (r &&& 0b00011111) := by
  decide

set_option maxRecDepth 100000 in
/-- Bit-field facts about the two MTreg bytes, for every 8-bit value. -/
theorem mtreg_fields : ∀ r < 256,
    ((((0b01000000 ||| (r >>> 5)) &&& 0x07) <<< 5) ||| ((0b01100000 ||| (r &&& 0b00011111)) &&& 0x1F) = r)
    ∧ (0b01000000 ||| (r >>> 5)) &&& 0xF8 = 0x40
    ∧ (0b01100000 ||| (r &&& 0b00011111)) &&& 0xE0 = 0x60 := by
  decide

/-- The guard of `BHI1750SetResolution` is false exactly on `[31, 254]`. -/
theorem resolution_guard_false (r : Nat) (h1 : 31 ≤ r) (h2 : r ≤ 254) :
    ((decide (r < 31)) || (decide (r > 254))) = false := by
  simp only [Bool.or_eq_false_iff, decide_eq_false_iff_not]
  omega

/-- What `BHI1750SetResolution` does on a value in range. -/
theorem setResolution_in_range (hi2c : I2C_HandleTypeDef) (r : Nat) (h1 : 31 ≤ r) (h2 : r ≤ 254) :
    BHI1750SetResolution hi2c r =
      HAL_I2C_Master_Transmit hi2c 0x46
        [0b01000000 ||| (r >>> 5), 0b01100000 ||| (r &&& 0b00011111)] 2 20 := by
  have hr : r < 256 := by omega
  unfold BHI1750SetResolution
  rw [resolution_guard_false r h1 h2]
  simp only [Bool.false_eq_true, if_false, mtreg_byte0_fits r hr, mtreg_byte1_fits r hr,
    write_address_eq]

/-- The guard of `BHI1750StartContinuous` is false exactly at `0x10`. -/
theorem continuous_guard (mode : Nat) :
    ((!(mode == BH1750_CONT_HIRES_MODE)) || (mode == BH1750_CONT_HIRES2_MODE)
      || (mode == BH1750_CONT_LOWRES_MODE)) = !(mode == 0x10) := by
  by_cases h : mode = 0x10
  · subst h; decide
  · have hb : (mode == BH1750_CONT_HIRES_MODE) = false := beq_false_of_ne h
    have hb2 : (mode == 0x10) = false := beq_false_of_ne h
    rw [hb, hb2]; rfl

/-- The guard of `BHI1750StartSingle` is false exactly at `0x20`. -/
theorem single_guard (mode : Nat) :
    ((!(mode == BH1750_OT_HIRES_MODE)) || (mode == BH1750_OT_HIRES2_MODE)
      || (mode == BH1750_OT_LOWRES_MODE)) = !(mode == 0x20) := by
  by_cases h : mode = 0x20
  · subst h; decide
  · have hb : (mode == BH1750_OT_HIRES_MODE) = false := beq_false_of_ne h
    have hb2 : (mode == 0x20) = false := beq_false_of_ne h
    rw [hb, hb2]; rfl

/-- A rejected continuous mode: status `HAL_ERROR`, handle untouched. -/
theorem startContinuous_reject (hi2c : I2C_HandleTypeDef) (mode : Nat) (h : mode ≠ 0x10) :
    BHI1750StartContinuous hi2c mode = (HAL_ERROR, hi2c) := by
  unfold BHI1750StartContinuous
  rw [continuous_guard]
  simp [h]

/-- A rejected one-time mode: status `HAL_ERROR`, handle untouched. -/
theorem startSingle_reject (hi2c : I2C_HandleTypeDef) (mode : Nat) (h : mode ≠ 0x20) :
    BHI1750StartSingle hi2c mode = (HAL_ERROR, hi2c) := by
  unfold BHI1750StartSingle
  rw [single_guard]
  simp [h]

/-- The accepted continuous mode is transmitted as one byte. -/
theorem startContinuous_accept (hi2c : I2C_HandleTypeDef) :
    BHI1750StartContinuous hi2c 0x10 = HAL_I2C_Master_Transmit hi2c 0x46 [0x10] 1 20 := by
  unfold BHI1750StartContinuous
  rw [continuous_guard, write_address_eq]
  simp

/-- The accepted one-time mode is transmitted as one byte. -/
theorem startSingle_accept (hi2c : I2C_HandleTypeDef) :
    BHI1750StartSingle hi2c 0x20 = HAL_I2C_Master_Transmit hi2c 0x46 [0x20] 1 20 := by
  unfold BHI1750StartSingle
  rw [single_guard, write_address_eq]
  simp

/-- A list never equals itself with one more element appended. -/
theorem calls_ne_append_one (l : List I2CCall) (c : I2CCall) : l ≠ l ++ [c] := by
  intro h
  have := congrArg List.length h
  simp at this

/-! ## Rounding lemmas -/

/-- Zero has no significant bits, whatever the fuel. -/
theorem bitLengthAux_zero (fuel : Nat) : bitLengthAux fuel 0 = 0 := by
  cases fuel <;> simp [bitLengthAux]

/-- With enough fuel, `n` lies below `2^len` and, when non-zero, at or above `2^(len-1)`. -/
theorem bitLengthAux_bounds (fuel : Nat) : ∀ n : Nat, n ≤ fuel →
    n < 2 ^ bitLengthAux fuel n ∧ (n ≠ 0 → 2 ^ bitLengthAux fuel n ≤ 2 * n) := by
  induction fuel with
  | zero =>
    intro n hn
    have : n = 0 := by omega
    subst this
    simp [bitLengthAux]
  | succ fuel ih =>
    intro n hn
    by_cases h0 : n = 0
    · subst h0
      simp [bitLengthAux]
    · have hstep : bitLengthAux (fuel + 1) n = bitLengthAux fuel (n / 2) + 1 := by
        simp [bitLengthAux, h0]
      rw [hstep, pow_succ]
      have hle : n / 2 ≤ fuel := by omega
      obtain ⟨h1, h2⟩ := ih (n / 2) hle
      constructor
      · omega
      · intro _
        by_cases h3 : n / 2 = 0
        · rw [h3, bitLengthAux_zero]
          omega
        · have := h2 h3
          omega

/-- A non-zero `n` satisfies `2^(len-1) ≤ n < 2^len` for `len = bitLength n`. -/
theorem bitLength_bounds (n : Nat) (h : n ≠ 0) :
    n < 2 ^ bitLength n ∧ 2 ^ bitLength n ≤ 2 * n := by
  obtain ⟨h1, h2⟩ := bitLengthAux_bounds n n (Nat.le_refl n)
  exact ⟨h1, h2 h⟩

/-- A number below `2^k` has at most `k` significant bits. -/
theorem bitLength_le_of_lt (n k : Nat) (h : n < 2 ^ k) : bitLength n ≤ k := by
  by_cases h0 : n = 0
  · subst h0
    simp [bitLength, bitLengthAux_zero]
  · by_contra hk
    have hk2 : k + 1 ≤ bitLength n := by omega
    have h2 := (bitLength_bounds n h0).2
    have h3 : 2 ^ (k + 1) ≤ 2 ^ bitLength n := Nat.pow_le_pow_right (by decide) hk2
    rw [pow_succ] at h3
    omega


/-- The rounded quotient is within half a unit of the exact quotient. -/
theorem roundShift_bounds (m s : Nat) (hs : 1 ≤ s) :
    roundShift m s * 2 ^ s ≤ m + 2 ^ (s - 1) ∧ m ≤ roundShift m s * 2 ^ s + 2 ^ (s - 1) := by
  obtain ⟨t, rfl⟩ : ∃ t, s = t + 1 := ⟨s - 1, by omega⟩
  have hT : 2 ^ (t + 1) = 2 * 2 ^ t := by rw [pow_succ]; ring
  have hdm := Nat.div_add_mod m (2 ^ (t + 1))
  have hlt : m % 2 ^ (t + 1) < 2 ^ (t + 1) := Nat.mod_lt _ (by positivity)
  have hq : m >>> (t + 1) = m / 2 ^ (t + 1) := Nat.shiftRight_eq_div_pow m (t + 1)
  have hcomm : m / 2 ^ (t + 1) * 2 ^ (t + 1) = 2 ^ (t + 1) * (m / 2 ^ (t + 1)) := Nat.mul_comm _ _
  simp only [roundShift, Nat.add_sub_cancel, hq]
  split_ifs with hc
  · rw [Nat.add_mul, Nat.one_mul, hcomm]
    rcases hc with hc | ⟨hc, _⟩ <;> omega
  · rw [hcomm]
    have : ¬ (m % 2 ^ (t + 1) > 2 ^ t) := fun h => hc (Or.inl h)
    omega

/-- Rounding keeps the sign. -/
theorem roundBits_neg (p : Nat) (x : CFloat) : (roundBits p x).neg = x.neg := by
  unfold roundBits
  dsimp only
  split_ifs <;> rfl

/-- The magnitude of a value is its significand times the power of two. -/
theorem CFloat.abs_toRat (x : CFloat) : |x.toRat| = (x.mant : ℚ) * (2 : ℚ) ^ x.exp := by
  have h2 : (0 : ℚ) < (2 : ℚ) ^ x.exp := zpow_pos (by norm_num) _
  have hm : (0 : ℚ) ≤ (x.mant : ℚ) := Nat.cast_nonneg _
  unfold CFloat.toRat
  rw [abs_mul, abs_mul, abs_of_pos h2, abs_of_nonneg hm]
  split_ifs <;> simp

/-- Rounding to `p` bits changes a value by at most `2^-p` of its magnitude. -/
theorem roundBits_error (p : Nat) (hp : 1 ≤ p) (x : CFloat) :
    |(roundBits p x).toRat - x.toRat| * 2 ^ p ≤ |x.toRat| := by
  obtain ⟨neg, m, e⟩ := x
  have h2e : (0 : ℚ) < (2 : ℚ) ^ e := zpow_pos (by norm_num) _
  by_cases hm : m = 0
  · subst hm
    simp [roundBits, CFloat.toRat]
  by_cases hlen : bitLength m ≤ p
  · have hval : (roundBits p ⟨neg, m, e⟩).toRat = CFloat.toRat ⟨neg, m, e⟩ := by
      simp only [roundBits, hm, hlen, if_true, if_false, CFloat.toRat, Nat.shiftLeft_eq,
        Nat.cast_mul, Nat.cast_pow, Nat.cast_ofNat]
      rw [zpow_sub₀ (by norm_num : (2 : ℚ) ≠ 0), zpow_natCast]
      have : ((2 : ℚ) ^ (p - bitLength m)) ≠ 0 := by positivity
      field_simp
      split_ifs <;> ring
    rw [hval, sub_self, abs_zero, zero_mul]
    exact abs_nonneg _
  · obtain ⟨hb1, hb2⟩ := bitLength_bounds m hm
    have hs : 1 ≤ bitLength m - p := by omega
    obtain ⟨hr1, hr2⟩ := roundShift_bounds m (bitLength m - p) hs
    generalize hsdef : bitLength m - p = s at *
    generalize hq : roundShift m s = q1 at *
    have hlen2 : bitLength m = s + p := by omega
    -- half * 2^p ≤ m
    have hhalf : 2 ^ (s - 1) * 2 ^ p ≤ m := by
      have h1 : 2 ^ bitLength m = 2 * (2 ^ (s - 1) * 2 ^ p) := by
        rw [hlen2, pow_add]
        obtain ⟨t, rfl⟩ : ∃ t, s = t + 1 := ⟨s - 1, by omega⟩
        rw [Nat.add_sub_cancel, pow_succ]; ring
      omega
    have hval : (roundBits p ⟨neg, m, e⟩).toRat =
        (if neg then -1 else 1) * (q1 : ℚ) * ((2 : ℚ) ^ e * 2 ^ s) := by
      by_cases hc : q1 = 2 ^ p
      · simp only [roundBits, hm, hlen, if_false, hsdef, hq, hc, if_true, CFloat.toRat]
        obtain ⟨t, rfl⟩ : ∃ t, p = t + 1 := ⟨p - 1, by omega⟩
        rw [zpow_add₀ (by norm_num : (2 : ℚ) ≠ 0), zpow_add₀ (by norm_num : (2 : ℚ) ≠ 0),
          zpow_natCast, Nat.add_sub_cancel]
        push_cast
        ring
      · simp only [roundBits, hm, hlen, if_false, hsdef, hq, hc, CFloat.toRat]
        rw [zpow_add₀ (by norm_num : (2 : ℚ) ≠ 0), zpow_natCast]
    have hx : CFloat.toRat ⟨neg, m, e⟩ = (if neg then -1 else 1) * (m : ℚ) * (2 : ℚ) ^ e := rfl
    have habs : |CFloat.toRat ⟨neg, m, e⟩| = (m : ℚ) * (2 : ℚ) ^ e := CFloat.abs_toRat _
    have hdiff : |(roundBits p ⟨neg, m, e⟩).toRat - CFloat.toRat ⟨neg, m, e⟩|
        = (2 : ℚ) ^ e * |(q1 : ℚ) * 2 ^ s - m| := by
      rw [hval, hx]
      have : (if neg then (-1 : ℚ) else 1) * (q1 : ℚ) * ((2 : ℚ) ^ e * 2 ^ s)
          - (if neg then (-1 : ℚ) else 1) * (m : ℚ) * (2 : ℚ) ^ e
          = (if neg then (-1 : ℚ) else 1) * ((2 : ℚ) ^ e * ((q1 : ℚ) * 2 ^ s - m)) := by ring
      rw [this, abs_mul, abs_mul, abs_of_pos h2e]
      cases neg <;> simp
    have hr1q : (q1 : ℚ) * 2 ^ s ≤ (m : ℚ) + 2 ^ (s - 1) := by exact_mod_cast hr1
    have hr2q : (m : ℚ) ≤ (q1 : ℚ) * 2 ^ s + 2 ^ (s - 1) := by exact_mod_cast hr2
    have hhq : (2 : ℚ) ^ (s - 1) * 2 ^ p ≤ (m : ℚ) := by exact_mod_cast hhalf
    have habs2 : |(q1 : ℚ) * 2 ^ s - m| ≤ 2 ^ (s - 1) := by
      rw [abs_le]; constructor <;> linarith
    rw [hdiff, habs]
    have hp2 : (0 : ℚ) < (2 : ℚ) ^ p := by positivity
    calc (2 : ℚ) ^ e * |(q1 : ℚ) * 2 ^ s - m| * 2 ^ p
        ≤ (2 : ℚ) ^ e * 2 ^ (s - 1) * 2 ^ p := by
          apply mul_le_mul_of_nonneg_right _ hp2.le
          exact mul_le_mul_of_nonneg_left habs2 h2e.le
      _ = (2 : ℚ) ^ e * (2 ^ (s - 1) * 2 ^ p) := by ring
      _ ≤ (2 : ℚ) ^ e * m := mul_le_mul_of_nonneg_left hhq h2e.le
      _ = (m : ℚ) * (2 : ℚ) ^ e := by ring


/-- Rounding a `(s+p)`-bit number down by `s` bits gives a value in `[2^(p-1), 2^p]`. -/
theorem roundShift_range (m s p : Nat) (hs : 1 ≤ s) (hp : 1 ≤ p) (h1 : m < 2 ^ (s + p))
    (h2 : 2 ^ (s + p) ≤ 2 * m) :
    2 ^ p ≤ 2 * roundShift m s ∧ roundShift m s ≤ 2 ^ p := by
  obtain ⟨hr1, hr2⟩ := roundShift_bounds m s hs
  obtain ⟨t, rfl⟩ : ∃ t, s = t + 1 := ⟨s - 1, by omega⟩
  obtain ⟨u, rfl⟩ : ∃ u, p = u + 1 := ⟨p - 1, by omega⟩
  rw [Nat.add_sub_cancel] at hr1 hr2
  have hsp : 2 ^ (t + 1 + (u + 1)) = 2 ^ (u + 1) * 2 ^ (t + 1) := by rw [pow_add]; ring
  rw [hsp] at h1 h2
  have hTpos : 0 < 2 ^ (t + 1) := by positivity
  have hT : 2 ^ (t + 1) = 2 * 2 ^ t := by rw [pow_succ]; ring
  have hP : 2 ^ (u + 1) = 2 * 2 ^ u := by rw [pow_succ]; ring
  generalize roundShift m (t + 1) = q at *
  have e1 : (2 * q + 1) * 2 ^ (t + 1) = 2 * (q * 2 ^ (t + 1)) + 2 ^ (t + 1) := by ring
  have e2 : (2 ^ (u + 1) + 1) * 2 ^ (t + 1) = 2 ^ (u + 1) * 2 ^ (t + 1) + 2 ^ (t + 1) := by ring
  generalize hA : q * 2 ^ (t + 1) = A at *
  generalize hB : 2 ^ (u + 1) * 2 ^ (t + 1) = B at *
  generalize hC : (2 * q + 1) * 2 ^ (t + 1) = C at *
  generalize hD : (2 ^ (u + 1) + 1) * 2 ^ (t + 1) = D at *
  have h4 : B ≤ C := by omega
  have h6 : A < D := by omega
  rw [← hB, ← hC] at h4
  rw [← hA, ← hD] at h6
  have h5 : 2 ^ (u + 1) ≤ 2 * q + 1 := Nat.le_of_mul_le_mul_right h4 hTpos
  have h7 : q < 2 ^ (u + 1) + 1 := Nat.lt_of_mul_lt_mul_right h6
  constructor <;> omega


/-- The result of rounding a non-zero value is normalised to exactly `p` bits and lies within half a unit in its last place of the input. -/
theorem roundBits_half_ulp (p : Nat) (hp : 1 ≤ p) (x : CFloat) (hm : x.mant ≠ 0) :
    2 ^ p ≤ 2 * (roundBits p x).mant ∧ (roundBits p x).mant < 2 ^ p
    ∧ |(roundBits p x).toRat - x.toRat| * 2 ≤ (2 : ℚ) ^ (roundBits p x).exp := by
  obtain ⟨neg, m, e⟩ := x
  simp only at hm
  have h2e : (0 : ℚ) < (2 : ℚ) ^ e := zpow_pos (by norm_num) _
  have h20 : (2 : ℚ) ≠ 0 := by norm_num
  obtain ⟨hb1, hb2⟩ := bitLength_bounds m hm
  by_cases hlen : bitLength m ≤ p
  · have hr : roundBits p ⟨neg, m, e⟩ =
        ⟨neg, m <<< (p - bitLength m), e - ((p - bitLength m : Nat) : Int)⟩ := by
      simp only [roundBits, hm, hlen, if_true, if_false]
    have hval : (roundBits p ⟨neg, m, e⟩).toRat = CFloat.toRat ⟨neg, m, e⟩ := by
      simp only [hr, CFloat.toRat, Nat.shiftLeft_eq, Nat.cast_mul, Nat.cast_pow, Nat.cast_ofNat]
      rw [zpow_sub₀ h20, zpow_natCast]
      have : ((2 : ℚ) ^ (p - bitLength m)) ≠ 0 := by positivity
      field_simp
      split_ifs <;> ring
    have hpow : 2 ^ p = 2 ^ bitLength m * 2 ^ (p - bitLength m) := by
      rw [← pow_add]; congr 1; omega
    have hkpos : 0 < 2 ^ (p - bitLength m) := by positivity
    refine ⟨?_, ?_, ?_⟩
    · rw [hr]
      simp only [Nat.shiftLeft_eq]
      rw [hpow, ← Nat.mul_assoc]
      exact Nat.mul_le_mul_right _ hb2
    · rw [hr]
      simp only [Nat.shiftLeft_eq]
      rw [hpow]
      exact Nat.mul_lt_mul_of_pos_right hb1 hkpos
    · rw [hval, sub_self, abs_zero, zero_mul]
      exact (zpow_pos (by norm_num) _).le
  · have hs : 1 ≤ bitLength m - p := by omega
    obtain ⟨hr1, hr2⟩ := roundShift_bounds m (bitLength m - p) hs
    have hlen2 : bitLength m = (bitLength m - p) + p := by omega
    rw [hlen2] at hb1 hb2
    obtain ⟨hg1, hg2⟩ := roundShift_range m (bitLength m - p) p hs hp hb1 hb2
    generalize hsdef : bitLength m - p = s at *
    generalize hq : roundShift m s = q1 at *
    obtain ⟨t, rfl⟩ : ∃ t, s = t + 1 := ⟨s - 1, by omega⟩
    obtain ⟨u, rfl⟩ : ∃ u, p = u + 1 := ⟨p - 1, by omega⟩
    rw [Nat.add_sub_cancel] at hr1 hr2
    have hr1q : (q1 : ℚ) * 2 ^ (t + 1) ≤ (m : ℚ) + 2 ^ t := by exact_mod_cast hr1
    have hr2q : (m : ℚ) ≤ (q1 : ℚ) * 2 ^ (t + 1) + 2 ^ t := by exact_mod_cast hr2
    have habs2 : |(q1 : ℚ) * 2 ^ (t + 1) - m| ≤ 2 ^ t := by
      rw [abs_le]; constructor <;> linarith
    have hx : CFloat.toRat ⟨neg, m, e⟩ = (if neg then -1 else 1) * (m : ℚ) * (2 : ℚ) ^ e := rfl
    have hdiff : ∀ v : ℚ, v = (if neg then -1 else 1) * (q1 : ℚ) * ((2 : ℚ) ^ e * 2 ^ (t + 1)) →
        |v - CFloat.toRat ⟨neg, m, e⟩| * 2 ≤ (2 : ℚ) ^ e * 2 ^ (t + 1) := by
      intro v hv
      have : v - CFloat.toRat ⟨neg, m, e⟩
          = (if neg then (-1 : ℚ) else 1) * ((2 : ℚ) ^ e * ((q1 : ℚ) * 2 ^ (t + 1) - m)) := by
        rw [hv, hx]; ring
      rw [this, abs_mul, abs_mul, abs_of_pos h2e]
      have hsgn : |(if neg then (-1 : ℚ) else 1)| = 1 := by cases neg <;> simp
      rw [hsgn, one_mul]
      have : (2 : ℚ) ^ e * 2 ^ (t + 1) = (2 : ℚ) ^ e * 2 ^ t * 2 := by rw [pow_succ]; ring
      rw [this]
      apply mul_le_mul_of_nonneg_right _ (by norm_num)
      exact mul_le_mul_of_nonneg_left habs2 h2e.le
    by_cases hc : q1 = 2 ^ (u + 1)
    · have hr : roundBits (u + 1) ⟨neg, m, e⟩ = ⟨neg, 2 ^ u, e + ((t + 1 : Nat) : Int) + 1⟩ := by
        simp only [roundBits, hm, hlen, if_false, hsdef, hq, hc, if_true, Nat.add_sub_cancel]
      have hval : (roundBits (u + 1) ⟨neg, m, e⟩).toRat =
          (if neg then -1 else 1) * (q1 : ℚ) * ((2 : ℚ) ^ e * 2 ^ (t + 1)) := by
        rw [hr, hc]
        simp only [CFloat.toRat]
        rw [zpow_add₀ h20, zpow_add₀ h20, zpow_natCast]
        push_cast
        ring
      refine ⟨?_, ?_, ?_⟩
      · rw [hr]; simp only; rw [pow_succ]; omega
      · rw [hr]; simp only; rw [pow_succ]
        have : 0 < 2 ^ u := by positivity
        omega
      · have h := hdiff _ hval
        rw [hr] at h ⊢
        simp only at h ⊢
        rw [zpow_add₀ h20, zpow_add₀ h20, zpow_natCast]
        have hpos : (0 : ℚ) ≤ (2 : ℚ) ^ e * 2 ^ (t + 1) := by positivity
        calc _ ≤ (2 : ℚ) ^ e * 2 ^ (t + 1) := h
          _ ≤ (2 : ℚ) ^ e * 2 ^ (t + 1) * 2 ^ (1 : ℤ) := by
            rw [zpow_one]; linarith
    · have hr : roundBits (u + 1) ⟨neg, m, e⟩ = ⟨neg, q1, e + ((t + 1 : Nat) : Int)⟩ := by
        simp only [roundBits, hm, hlen, if_false, hsdef, hq, hc]
      have hval : (roundBits (u + 1) ⟨neg, m, e⟩).toRat =
          (if neg then -1 else 1) * (q1 : ℚ) * ((2 : ℚ) ^ e * 2 ^ (t + 1)) := by
        rw [hr]
        simp only [CFloat.toRat]
        rw [zpow_add₀ h20, zpow_natCast]
      refine ⟨?_, ?_, ?_⟩
      · rw [hr]; exact hg1
      · rw [hr]; simp only; omega
      · have h := hdiff _ hval
        rw [hr] at h ⊢
        simp only at h ⊢
        rw [zpow_add₀ h20, zpow_natCast]
        exact h


/-- A significand that already fits in `p` bits is represented exactly. -/
theorem roundBits_exact (p : Nat) (x : CFloat) (h : bitLength x.mant ≤ p) :
    (roundBits p x).toRat = x.toRat := by
  obtain ⟨neg, m, e⟩ := x
  simp only at h
  by_cases hm : m = 0
  · subst hm
    simp [roundBits, CFloat.toRat]
  · simp only [roundBits, hm, h, if_true, if_false, CFloat.toRat, Nat.shiftLeft_eq,
      Nat.cast_mul, Nat.cast_pow, Nat.cast_ofNat]
    rw [zpow_sub₀ (by norm_num : (2 : ℚ) ≠ 0), zpow_natCast]
    have : ((2 : ℚ) ^ (p - bitLength m)) ≠ 0 := by positivity
    field_simp
    split_ifs <;> ring

/-- The value of a non-negative float. -/
theorem CFloat.toRat_of_not_neg (x : CFloat) (h : x.neg = false) :
    x.toRat = (x.mant : ℚ) * (2 : ℚ) ^ x.exp := by
  simp [CFloat.toRat, h]

/-- A float with clear sign bit is non-negative. -/
theorem CFloat.toRat_nonneg (x : CFloat) (h : x.neg = false) : 0 ≤ x.toRat := by
  rw [CFloat.toRat_of_not_neg x h]
  have : (0 : ℚ) < (2 : ℚ) ^ x.exp := zpow_pos (by norm_num) _
  positivity

/-- The `double` literal `1.2` is `6/5 - 2^-52/5`, within half a unit in the last place of `6/5`. -/
theorem conversion_factor_toRat :
    BH1750_CONVERSION_FACTOR.toRat = 6 / 5 - 1 / (5 * 2 ^ 52) := by
  norm_num [BH1750_CONVERSION_FACTOR, CFloat.toRat]

/-- Integrality gap: a dyadic `mz / 2^j` closer than `3/(5*2^j)` to `raw * 6/5` is in fact within `1 / 2^(j+1)` of it, because `5*mz - 6*raw*2^j` is an integer. -/
theorem half_ulp_of_close (mz raw j : Nat)
    (h : |(mz : ℚ) / 2 ^ j - (raw : ℚ) * 6 / 5| * (5 * 2 ^ j) < 3) :
    |(mz : ℚ) / 2 ^ j - (raw : ℚ) * 6 / 5| * 2 ≤ 1 / 2 ^ j := by
  have hj : (0 : ℚ) < 2 ^ j := by positivity
  have hD : (mz : ℚ) / 2 ^ j - (raw : ℚ) * 6 / 5
      = (((5 * mz : ℤ) - 6 * raw * 2 ^ j : ℤ) : ℚ) / (5 * 2 ^ j) := by
    push_cast
    field_simp
    ring
  generalize ((5 * mz : ℤ) - 6 * raw * 2 ^ j : ℤ) = D at hD
  rw [hD] at h ⊢
  have h5 : (0 : ℚ) < 5 * 2 ^ j := by positivity
  rw [abs_div, abs_of_pos h5, div_mul_cancel₀ _ h5.ne'] at h
  rw [abs_div, abs_of_pos h5]
  have hlt : |D| < 3 := by exact_mod_cast h
  have hle : |D| ≤ 2 := by omega
  have hleq : |(D : ℚ)| ≤ 2 := by exact_mod_cast hle
  rw [div_mul_eq_mul_div, div_le_div_iff₀ h5 hj]
  nlinarith

/-- For a non-zero 16-bit `raw`, the C expression `(float)(raw * 1.2)` is a
normalised 24-bit float within half a unit in its last place of the exact
`raw * 6/5` (double rounding does no harm), and its exponent stays in
`[-23, -7]`, inside the normal range of `float`. -/
theorem lux_half_ulp (raw : Nat) (h0 : raw ≠ 0) (hraw : raw < 2 ^ 16) :
    (doubleToFloat (mulDouble (intToDouble raw) BH1750_CONVERSION_FACTOR)).neg = false
    ∧ 2 ^ 24 ≤ 2 * (doubleToFloat (mulDouble (intToDouble raw) BH1750_CONVERSION_FACTOR)).mant
    ∧ (doubleToFloat (mulDouble (intToDouble raw) BH1750_CONVERSION_FACTOR)).mant < 2 ^ 24
    ∧ |(doubleToFloat (mulDouble (intToDouble raw) BH1750_CONVERSION_FACTOR)).toRat
          - (raw : ℚ) * 6 / 5| * 2
        ≤ (2 : ℚ) ^ (doubleToFloat (mulDouble (intToDouble raw) BH1750_CONVERSION_FACTOR)).exp
    ∧ -23 ≤ (doubleToFloat (mulDouble (intToDouble raw) BH1750_CONVERSION_FACTOR)).exp
    ∧ (doubleToFloat (mulDouble (intToDouble raw) BH1750_CONVERSION_FACTOR)).exp ≤ -7 := by
  -- the integer as a double: exact
  have hraw53 : raw < 2 ^ 53 := lt_of_lt_of_le hraw (Nat.pow_le_pow_right (by decide) (by decide))
  have ha_val : (intToDouble raw).toRat = (raw : ℚ) := by
    rw [intToDouble, roundBits_exact 53 _ (bitLength_le_of_lt raw 53 hraw53)]
    simp [CFloat.toRat]
  have ha_neg : (intToDouble raw).neg = false := roundBits_neg 53 _
  have ha_mant : (intToDouble raw).mant ≠ 0 := by
    have h := (roundBits_half_ulp 53 (by decide) ⟨false, raw, 0⟩ h0).1
    intro hz
    unfold intToDouble at hz
    rw [hz] at h
    norm_num at h
  generalize intToDouble raw = a at ha_val ha_neg ha_mant ⊢
  -- the exact product
  have hprod_val : CFloat.toRat ⟨xor a.neg BH1750_CONVERSION_FACTOR.neg,
      a.mant * BH1750_CONVERSION_FACTOR.mant, a.exp + BH1750_CONVERSION_FACTOR.exp⟩
      = (raw : ℚ) * (6 / 5 - 1 / (5 * 2 ^ 52)) := by
    rw [← ha_val, ← conversion_factor_toRat]
    simp only [CFloat.toRat, ha_neg, BH1750_CONVERSION_FACTOR]
    rw [zpow_add₀ (by norm_num : (2 : ℚ) ≠ 0)]
    push_cast
    simp
    ring
  have hprod_mant : (⟨xor a.neg BH1750_CONVERSION_FACTOR.neg,
      a.mant * BH1750_CONVERSION_FACTOR.mant, a.exp + BH1750_CONVERSION_FACTOR.exp⟩ : CFloat).mant
      ≠ 0 := Nat.mul_ne_zero ha_mant (by decide)
  have hprod_neg : (⟨xor a.neg BH1750_CONVERSION_FACTOR.neg,
      a.mant * BH1750_CONVERSION_FACTOR.mant, a.exp + BH1750_CONVERSION_FACTOR.exp⟩ : CFloat).neg
      = false := by simp [ha_neg, BH1750_CONVERSION_FACTOR]
  -- the double product
  have hy_err := roundBits_error 53 (by decide) ⟨xor a.neg BH1750_CONVERSION_FACTOR.neg,
      a.mant * BH1750_CONVERSION_FACTOR.mant, a.exp + BH1750_CONVERSION_FACTOR.exp⟩
  have hy_neg : (mulDouble a BH1750_CONVERSION_FACTOR).neg = false := by
    rw [mulDouble, roundBits_neg]; exact hprod_neg
  have hy_mant : (mulDouble a BH1750_CONVERSION_FACTOR).mant ≠ 0 := by
    have h := (roundBits_half_ulp 53 (by decide) _ hprod_mant).1
    intro hz
    unfold mulDouble at hz
    rw [hz] at h
    norm_num at h
  rw [hprod_val] at hy_err
  change |(mulDouble a BH1750_CONVERSION_FACTOR).toRat - _| * _ ≤ _ at hy_err
  generalize mulDouble a BH1750_CONVERSION_FACTOR = y at hy_err hy_neg hy_mant ⊢
  -- the narrowing
  obtain ⟨hz1, hz2, hz3⟩ := roundBits_half_ulp 24 (by decide) y hy_mant
  have hz_neg : (doubleToFloat y).neg = false := by rw [doubleToFloat, roundBits_neg]; exact hy_neg
  change 2 ^ 24 ≤ 2 * (doubleToFloat y).mant at hz1
  change (doubleToFloat y).mant < 2 ^ 24 at hz2
  change |(doubleToFloat y).toRat - y.toRat| * 2 ≤ (2 : ℚ) ^ (doubleToFloat y).exp at hz3
  refine ⟨hz_neg, hz1, hz2, ?_⟩
  have hZ := CFloat.toRat_of_not_neg _ hz_neg
  generalize doubleToFloat y = z at hz1 hz2 hz3 hZ ⊢
  generalize y.toRat = Y at hy_err hz3
  obtain ⟨zneg, mz, ez⟩ := z
  simp only at hz1 hz2 hz3 hZ ⊢
  -- numeric facts
  have hR1 : (1 : ℚ) ≤ (raw : ℚ) := by exact_mod_cast Nat.one_le_iff_ne_zero.mpr h0
  have hR2 : (raw : ℚ) ≤ 65535 := by
    have : raw ≤ 65535 := by
      have : (2 : ℕ) ^ 16 = 65536 := by norm_num
      omega
    exact_mod_cast this
  have hm1 : (2 : ℚ) ^ 23 ≤ (mz : ℚ) := by
    have : 2 ^ 23 ≤ mz := by
      have : (2 : ℕ) ^ 24 = 2 * 2 ^ 23 := by norm_num
      omega
    exact_mod_cast this
  have hm2 : (mz : ℚ) < 2 ^ 24 := by exact_mod_cast hz2
  have hw : (0 : ℚ) < (2 : ℚ) ^ ez := zpow_pos (by norm_num) _
  generalize hZv : CFloat.toRat ⟨zneg, mz, ez⟩ = Z at hz3 hZ ⊢
  have hP : (0 : ℚ) < (raw : ℚ) * (6 / 5 - 1 / (5 * 2 ^ 52)) := by
    apply mul_pos (by linarith)
    norm_num
  rw [abs_of_pos hP] at hy_err
  have hYab := abs_le.mp (show |Y - (raw : ℚ) * (6 / 5 - 1 / (5 * 2 ^ 52))|
      ≤ (raw : ℚ) * (6 / 5 - 1 / (5 * 2 ^ 52)) / 2 ^ 53 by
    rw [le_div_iff₀ (by positivity)]; exact hy_err)
  have hZab := abs_le.mp (show |Z - Y| ≤ (2 : ℚ) ^ ez / 2 by
    rw [le_div_iff₀ (by norm_num)]; exact hz3)
  have hZlo : (2 : ℚ) ^ 23 * (2 : ℚ) ^ ez ≤ Z := by
    rw [hZ]; exact mul_le_mul_of_nonneg_right hm1 hw.le
  have hZhi : Z < (2 : ℚ) ^ 24 * (2 : ℚ) ^ ez := by
    rw [hZ]; exact mul_lt_mul_of_pos_right hm2 hw
  norm_num at hYab
  -- exponent range
  have hw_hi : (2 : ℚ) ^ ez < (2 : ℚ) ^ (-6 : ℤ) := by
    have e6 : (2 : ℚ) ^ (-6 : ℤ) = 1 / 64 := by norm_num
    rw [e6]
    norm_num at hZlo
    linarith [hYab.1, hYab.2, hZab.1, hZab.2]
  have hw_lo : (2 : ℚ) ^ (-24 : ℤ) < (2 : ℚ) ^ ez := by
    have e24 : (2 : ℚ) ^ (-24 : ℤ) = 1 / 16777216 := by norm_num
    rw [e24]
    norm_num at hZhi
    linarith [hYab.1, hYab.2, hZab.1, hZab.2]
  have he_hi : ez < -6 := (zpow_lt_zpow_iff_right₀ (by norm_num : (1 : ℚ) < 2)).mp hw_hi
  have he_lo : -24 < ez := (zpow_lt_zpow_iff_right₀ (by norm_num : (1 : ℚ) < 2)).mp hw_lo
  refine ⟨?_, by omega, by omega⟩
  obtain ⟨j, rfl⟩ : ∃ j : ℕ, ez = -(j : ℤ) := ⟨(-ez).toNat, by omega⟩
  have hj23 : j ≤ 23 := by omega
  have hwj : (2 : ℚ) ^ (-(j : ℤ)) = 1 / 2 ^ j := by
    rw [zpow_neg, zpow_natCast, one_div]
  have hTpos : (0 : ℚ) < 2 ^ j := by positivity
  have hT23 : (2 : ℚ) ^ j ≤ 2 ^ 23 := pow_le_pow_right₀ (by norm_num) hj23
  have hZ2 : Z = (mz : ℚ) / 2 ^ j := by rw [hZ, hwj]; ring
  -- total error
  have hE : |Z - (raw : ℚ) * 6 / 5| ≤ (2 : ℚ) ^ (-(j : ℤ)) / 2 + 1 / 68719476736 := by
    rw [abs_le]
    constructor <;> linarith [hYab.1, hYab.2, hZab.1, hZab.2]
  rw [hwj] at hE ⊢
  rw [hZ2] at hE ⊢
  apply half_ulp_of_close
  calc |(mz : ℚ) / 2 ^ j - (raw : ℚ) * 6 / 5| * (5 * 2 ^ j)
      ≤ (1 / 2 ^ j / 2 + 1 / 68719476736) * (5 * 2 ^ j) :=
        mul_le_mul_of_nonneg_right hE (by positivity)
    _ = 5 / 2 + 5 / 68719476736 * 2 ^ j := by field_simp; ring
    _ ≤ 5 / 2 + 5 / 68719476736 * 2 ^ 23 := by
        have := mul_le_mul_of_nonneg_left hT23 (by norm_num : (0 : ℚ) ≤ 5 / 68719476736)
        linarith
    _ < 3 := by norm_num

/-! ## Facts about the read path -/

/-- Two `uint8_t` buffer bytes combined by `(b0 << 8) | b1` and stored in a
`uint16_t` give the big-endian value `256 * b0 + b1`. -/
theorem light_received_eq (b0 b1 : Nat) (h0 : b0 < 256) (h1 : b1 < 256) :
    (((b0 % 2 ^ 8) <<< 8) ||| (b1 % 2 ^ 8)) % 2 ^ 16 = 256 * b0 + b1 := by
  have e0 : b0 % 2 ^ 8 = b0 := Nat.mod_eq_of_lt (by norm_num; exact h0)
  have e1 : b1 % 2 ^ 8 = b1 := Nat.mod_eq_of_lt (by norm_num; exact h1)
  have hb : b1 < 2 ^ 8 := by norm_num; exact h1
  rw [e0, e1, Nat.shiftLeft_eq, Nat.mul_comm b0 (2 ^ 8), ← Nat.mul_add_lt_is_or hb b0]
  norm_num
  omega

/-- The read path when the transport reports `HAL_OK`. -/
theorem getLight_ok (hi2c : I2C_HandleTypeDef)
    (h : (hi2c.onReceive hi2c.calls (I2CCall.receive 0x47 2 20)).1 = HAL_OK) :
    BHI1750GetLightValueLx hi2c =
      (doubleToFloat (mulDouble (intToDouble
          (((((hi2c.onReceive hi2c.calls (I2CCall.receive 0x47 2 20)).2.getD 0 0 % 2 ^ 8) <<< 8)
            ||| ((hi2c.onReceive hi2c.calls (I2CCall.receive 0x47 2 20)).2.getD 1 0 % 2 ^ 8))
            % 2 ^ 16)) BH1750_CONVERSION_FACTOR),
        { hi2c with calls := hi2c.calls ++ [I2CCall.receive 0x47 2 20] }) := by
  unfold BHI1750GetLightValueLx HAL_I2C_Master_Receive
  simp only [read_address_eq]
  rw [if_pos h]

/-- The read path when the transport reports anything but `HAL_OK`. -/
theorem getLight_fail (hi2c : I2C_HandleTypeDef)
    (h : (hi2c.onReceive hi2c.calls (I2CCall.receive 0x47 2 20)).1 ≠ HAL_OK) :
    BHI1750GetLightValueLx hi2c =
      (doubleToFloat ⟨true, 1, 0⟩,
        { hi2c with calls := hi2c.calls ++ [I2CCall.receive 0x47 2 20] }) := by
  unfold BHI1750GetLightValueLx HAL_I2C_Master_Receive
  simp only [read_address_eq]
  rw [if_neg h]

/-- The float narrowed from the `double` literal `-1.0` has value `-1`. -/
theorem sentinel_toRat : (doubleToFloat ⟨true, 1, 0⟩).toRat = -1 := by
  have h : doubleToFloat ⟨true, 1, 0⟩ = ⟨true, 8388608, -23⟩ := by decide
  rw [h]
  norm_num [CFloat.toRat]

/-- The product `(float)(raw * 1.2)` never has its sign bit set. -/
theorem lux_neg (raw : Nat) :
    (doubleToFloat (mulDouble (intToDouble raw) BH1750_CONVERSION_FACTOR)).neg = false := by
  simp only [doubleToFloat, mulDouble, intToDouble, roundBits_neg, BH1750_CONVERSION_FACTOR]
  rfl

set_option maxRecDepth 100000 in
/-- A raw reading of 400 gives `15728640 * 2^-15`, which is 480. -/
theorem lux_400 :
    doubleToFloat (mulDouble (intToDouble (256 * 0x01 + 0x90)) BH1750_CONVERSION_FACTOR)
      = ⟨false, 15728640, -15⟩ := by
  decide

set_option maxRecDepth 100000 in
/-- A raw reading of 512 gives `10066330 * 2^-14`, the float nearest to 614.4. -/
theorem lux_512 :
    doubleToFloat (mulDouble (intToDouble (256 * 0x02 + 0x00)) BH1750_CONVERSION_FACTOR)
      = ⟨false, 10066330, -14⟩ := by
  decide

/-- A raw reading of zero gives the float zero. -/
theorem lux_zero :
    doubleToFloat (mulDouble (intToDouble 0) BH1750_CONVERSION_FACTOR) = ⟨false, 0, 0⟩ := by
  decide

/-! ## Reset and power-on -/

/-- C7: `BHI1750Reset` and `BHI1750PowerOn` each append exactly one transmit
call to the history, addressed to `(0x23 << 1) | 0 = 0x46` with timeout 20 and
a one-byte payload (`0x07` for reset, `0x01` for power-on), and each returns
exactly the status the transport gave for that call, whatever it is. -/
theorem C7_reset_powerOn_single_byte (hi2c : I2C_HandleTypeDef) :
    ((I2C_BH1750_ADDRESS <<< 1) ||| I2C_WRITE_BIT = 0x46)
    ∧ (BHI1750Reset hi2c).2.calls = hi2c.calls ++ [I2CCall.transmit 0x46 [0x07] 1 20]
    ∧ (BHI1750Reset hi2c).1 = hi2c.onTransmit hi2c.calls (I2CCall.transmit 0x46 [0x07] 1 20)
    ∧ (BHI1750PowerOn hi2c).2.calls = hi2c.calls ++ [I2CCall.transmit 0x46 [0x01] 1 20]
    ∧ (BHI1750PowerOn hi2c).1 = hi2c.onTransmit hi2c.calls (I2CCall.transmit 0x46 [0x01] 1 20) :=
  ⟨write_address_eq, rfl, rfl, rfl, rfl⟩

/-! ## Resolution (MTreg) -/

/-- C3: for every resolution `r` with `31 ≤ r ≤ 254`, `BHI1750SetResolution`
appends exactly one transmit call, to `0x46` with timeout 20, whose payload is
the two bytes `0b01000000 | (r >> 5)` and `0b01100000 | (r & 0x1F)` in that
order, and returns the status the transport gave for that call. -/
theorem C3_setResolution_payload (hi2c : I2C_HandleTypeDef) (r : Nat)
    (h1 : 31 ≤ r) (h2 : r ≤ 254) :
    (BHI1750SetResolution hi2c r).2.calls =
        hi2c.calls ++ [I2CCall.transmit 0x46
          [0b01000000 ||| (r >>> 5), 0b01100000 ||| (r &&& 0x1F)] 2 20]
    ∧ (BHI1750SetResolution hi2c r).1 =
        hi2c.onTransmit hi2c.calls (I2CCall.transmit 0x46
          [0b01000000 ||| (r >>> 5), 0b01100000 ||| (r &&& 0x1F)] 2 20) := by
  rw [setResolution_in_range hi2c r h1 h2]
  exact ⟨rfl, rfl⟩

/-- Witness for C3 at the default resolution 69: the bytes are `0x42, 0x65`. -/
theorem C3_setResolution_payload_witness :
    (BHI1750SetResolution ⟨[], fun _ _ => HAL_OK, fun _ _ => (HAL_OK, [])⟩ 69).2.calls =
        [] ++ [I2CCall.transmit 0x46 [0b01000000 ||| (69 >>> 5), 0b01100000 ||| (69 &&& 0x1F)] 2 20]
    ∧ (BHI1750SetResolution ⟨[], fun _ _ => HAL_OK, fun _ _ => (HAL_OK, [])⟩ 69).1 =
        (fun _ _ => HAL_OK) ([] : List I2CCall) (I2CCall.transmit 0x46
          [0b01000000 ||| (69 >>> 5), 0b01100000 ||| (69 &&& 0x1F)] 2 20) :=
  C3_setResolution_payload ⟨[], fun _ _ => HAL_OK, fun _ _ => (HAL_OK, [])⟩ 69 (by decide) (by decide)

/-- C4: for every 8-bit resolution outside `[31, 254]` (0..30, or 255),
`BHI1750SetResolution` returns `HAL_ERROR` and leaves the call history
unchanged: no transport call, hence no byte of a partial sequence. -/
theorem C4_setResolution_reject (hi2c : I2C_HandleTypeDef) (r : Nat) (hr : r < 256)
    (hout : r < 31 ∨ r = 255) :
    (BHI1750SetResolution hi2c r).1 = HAL_ERROR
    ∧ (BHI1750SetResolution hi2c r).2.calls = hi2c.calls := by
  have hg : ((decide (r < 31)) || (decide (r > 254))) = true := by
    simp only [Bool.or_eq_true, decide_eq_true_eq]
    omega
  unfold BHI1750SetResolution
  rw [if_pos hg]
  exact ⟨rfl, rfl⟩

/-- Witness for C4 at resolution 255. -/
theorem C4_setResolution_reject_witness :
    (BHI1750SetResolution ⟨[], fun _ _ => HAL_OK, fun _ _ => (HAL_OK, [])⟩ 255).1 = HAL_ERROR
    ∧ (BHI1750SetResolution ⟨[], fun _ _ => HAL_OK, fun _ _ => (HAL_OK, [])⟩ 255).2.calls = [] :=
  C4_setResolution_reject ⟨[], fun _ _ => HAL_OK, fun _ _ => (HAL_OK, [])⟩ 255 (by decide)
    (Or.inr rfl)

/-- C10: the MTreg packing is lossless and leaves the opcode prefixes alone.
For every `r` in `[31, 254]` the call appended by `BHI1750SetResolution` carries
two bytes `byte0, byte1` with `((byte0 & 0x07) << 5) | (byte1 & 0x1F) = r`,
`byte0 & 0xF8 = 0x40` and `byte1 & 0xE0 = 0x60`; and two resolutions in range
that produce the same call history are equal. -/
theorem C10_mtreg_lossless (hi2c : I2C_HandleTypeDef) (r : Nat) (h1 : 31 ≤ r) (h2 : r ≤ 254) :
    (∃ byte0 byte1 : Nat,
        (BHI1750SetResolution hi2c r).2.calls =
          hi2c.calls ++ [I2CCall.transmit 0x46 [byte0, byte1] 2 20]
        ∧ ((byte0 &&& 0x07) <<< 5) ||| (byte1 &&& 0x1F) = r
        ∧ byte0 &&& 0xF8 = 0x40
        ∧ byte1 &&& 0xE0 = 0x60)
    ∧ (∀ r2 : Nat, 31 ≤ r2 → r2 ≤ 254 →
        (BHI1750SetResolution hi2c r2).2.calls = (BHI1750SetResolution hi2c r).2.calls →
        r2 = r) := by
  have hr : r < 256 := by omega
  constructor
  · refine ⟨0b01000000 ||| (r >>> 5), 0b01100000 ||| (r &&& 0b00011111), ?_, mtreg_fields r hr⟩
    rw [setResolution_in_range hi2c r h1 h2]
    rfl
  · intro r2 h3 h4 heq
    have hr2 : r2 < 256 := by omega
    rw [setResolution_in_range hi2c r h1 h2, setResolution_in_range hi2c r2 h3 h4] at heq
    have hcall := List.append_cancel_left heq
    simp only [HAL_I2C_Master_Transmit, List.cons.injEq, and_true, I2CCall.transmit.injEq,
      true_and, List.take] at hcall
    have e1 := (mtreg_fields r hr).1
    have e2 := (mtreg_fields r2 hr2).1
    rw [← e2, ← e1, hcall.1, hcall.2]

/-- Witness for C10 at the default resolution 69. -/
theorem C10_mtreg_lossless_witness :
    (∃ byte0 byte1 : Nat,
        (BHI1750SetResolution ⟨[], fun _ _ => HAL_OK, fun _ _ => (HAL_OK, [])⟩ 69).2.calls =
          [] ++ [I2CCall.transmit 0x46 [byte0, byte1] 2 20]
        ∧ ((byte0 &&& 0x07) <<< 5) ||| (byte1 &&& 0x1F) = 69
        ∧ byte0 &&& 0xF8 = 0x40
        ∧ byte1 &&& 0xE0 = 0x60)
    ∧ (∀ r2 : Nat, 31 ≤ r2 → r2 ≤ 254 →
        (BHI1750SetResolution ⟨[], fun _ _ => HAL_OK, fun _ _ => (HAL_OK, [])⟩ r2).2.calls =
          (BHI1750SetResolution ⟨[], fun _ _ => HAL_OK, fun _ _ => (HAL_OK, [])⟩ 69).2.calls →
        r2 = 69) :=
  C10_mtreg_lossless ⟨[], fun _ _ => HAL_OK, fun _ _ => (HAL_OK, [])⟩ 69 (by decide) (by decide)

/-! ## Mode validators -/

/-- C1 (evaluation at the failing inputs): the documented modes `0x11`, `0x12`
given to `BHI1750StartContinuous`, and `0x21`, `0x22` given to
`BHI1750StartSingle`, are answered with `HAL_ERROR` and the handle is returned
untouched, so no transmit call is issued for them; only `0x10` and `0x20` are
sent. -/
theorem C1_documented_modes_rejected (hi2c : I2C_HandleTypeDef) :
    BHI1750StartContinuous hi2c BH1750_CONT_HIRES2_MODE = (HAL_ERROR, hi2c)
    ∧ BHI1750StartContinuous hi2c BH1750_CONT_LOWRES_MODE = (HAL_ERROR, hi2c)
    ∧ BHI1750StartSingle hi2c BH1750_OT_HIRES2_MODE = (HAL_ERROR, hi2c)
    ∧ BHI1750StartSingle hi2c BH1750_OT_LOWRES_MODE = (HAL_ERROR, hi2c)
    ∧ (BHI1750StartContinuous hi2c BH1750_CONT_HIRES_MODE).2.calls =
        hi2c.calls ++ [I2CCall.transmit 0x46 [0x10] 1 20]
    ∧ (BHI1750StartSingle hi2c BH1750_OT_HIRES_MODE).2.calls =
        hi2c.calls ++ [I2CCall.transmit 0x46 [0x20] 1 20] :=
  ⟨startContinuous_reject hi2c 0x11 (by decide), startContinuous_reject hi2c 0x12 (by decide),
   startSingle_reject hi2c 0x21 (by decide), startSingle_reject hi2c 0x22 (by decide),
   by rw [BH1750_CONT_HIRES_MODE, startContinuous_accept]; rfl,
   by rw [BH1750_OT_HIRES_MODE, startSingle_accept]; rfl⟩

/-- C2: every 8-bit mode that is none of `0x10, 0x11, 0x12` makes
`BHI1750StartContinuous` return `HAL_ERROR` with the call history unchanged, and
every 8-bit mode that is none of `0x20, 0x21, 0x22` makes `BHI1750StartSingle`
return `HAL_ERROR` with the call history unchanged. -/
theorem C2_undocumented_modes_rejected (hi2c : I2C_HandleTypeDef) (mode : Nat) (_hm : mode < 256) :
    ((mode ≠ 0x10 ∧ mode ≠ 0x11 ∧ mode ≠ 0x12) →
        (BHI1750StartContinuous hi2c mode).1 = HAL_ERROR
        ∧ (BHI1750StartContinuous hi2c mode).2.calls = hi2c.calls)
    ∧ ((mode ≠ 0x20 ∧ mode ≠ 0x21 ∧ mode ≠ 0x22) →
        (BHI1750StartSingle hi2c mode).1 = HAL_ERROR
        ∧ (BHI1750StartSingle hi2c mode).2.calls = hi2c.calls) := by
  constructor
  · intro h
    rw [startContinuous_reject hi2c mode h.1]
    exact ⟨rfl, rfl⟩
  · intro h
    rw [startSingle_reject hi2c mode h.1]
    exact ⟨rfl, rfl⟩

/-- Witness for C2 at mode `0x13`, which is outside both documented sets: both
functions return `HAL_ERROR` and the history of an empty bus stays empty. -/
theorem C2_undocumented_modes_rejected_witness :
    ((BHI1750StartContinuous ⟨[], fun _ _ => HAL_OK, fun _ _ => (HAL_OK, [])⟩ 0x13).1 = HAL_ERROR
      ∧ (BHI1750StartContinuous ⟨[], fun _ _ => HAL_OK, fun _ _ => (HAL_OK, [])⟩ 0x13).2.calls = [])
    ∧ ((BHI1750StartSingle ⟨[], fun _ _ => HAL_OK, fun _ _ => (HAL_OK, [])⟩ 0x13).1 = HAL_ERROR
      ∧ (BHI1750StartSingle ⟨[], fun _ _ => HAL_OK, fun _ _ => (HAL_OK, [])⟩ 0x13).2.calls = []) :=
  ⟨(C2_undocumented_modes_rejected ⟨[], fun _ _ => HAL_OK, fun _ _ => (HAL_OK, [])⟩ 0x13
      (by decide)).1 (by decide),
   (C2_undocumented_modes_rejected ⟨[], fun _ _ => HAL_OK, fun _ _ => (HAL_OK, [])⟩ 0x13
      (by decide)).2 (by decide)⟩

/-- C8 (refutation): on no bus is there an 8-bit mode outside `0x10, 0x11, 0x12`
for which `BHI1750StartContinuous` returns anything but `HAL_ERROR` or changes
the call history, nor an 8-bit mode outside `0x20, 0x21, 0x22` for which
`BHI1750StartSingle` does. -/
theorem C8_no_extra_mode_accepted :
    ¬ ((∃ (hi2c : I2C_HandleTypeDef) (mode : Nat),
          mode < 256 ∧ (mode ≠ 0x10 ∧ mode ≠ 0x11 ∧ mode ≠ 0x12) ∧
          ((BHI1750StartContinuous hi2c mode).1 ≠ HAL_ERROR
            ∨ (BHI1750StartContinuous hi2c mode).2.calls ≠ hi2c.calls))
      ∨ (∃ (hi2c : I2C_HandleTypeDef) (mode : Nat),
          mode < 256 ∧ (mode ≠ 0x20 ∧ mode ≠ 0x21 ∧ mode ≠ 0x22) ∧
          ((BHI1750StartSingle hi2c mode).1 ≠ HAL_ERROR
            ∨ (BHI1750StartSingle hi2c mode).2.calls ≠ hi2c.calls))) := by
  rintro (⟨hi2c, mode, _, hne, hacc⟩ | ⟨hi2c, mode, _, hne, hacc⟩)
  · rw [startContinuous_reject hi2c mode hne.1] at hacc
    rcases hacc with h | h <;> exact h rfl
  · rw [startSingle_reject hi2c mode hne.1] at hacc
    rcases hacc with h | h <;> exact h rfl

/-- C8 (amended): neither validator lets a value beyond its documented three
constants through.  Whenever `BHI1750StartContinuous` changes the call history
the mode is one of `0x10, 0x11, 0x12`, and whenever `BHI1750StartSingle` does the
mode is one of `0x20, 0x21, 0x22`. -/
theorem C8_accepted_modes_are_documented (hi2c : I2C_HandleTypeDef) (mode : Nat) :
    ((BHI1750StartContinuous hi2c mode).2.calls ≠ hi2c.calls →
        mode = 0x10 ∨ mode = 0x11 ∨ mode = 0x12)
    ∧ ((BHI1750StartSingle hi2c mode).2.calls ≠ hi2c.calls →
        mode = 0x20 ∨ mode = 0x21 ∨ mode = 0x22) := by
  constructor
  · intro h
    by_cases hm : mode = 0x10
    · exact Or.inl hm
    · rw [startContinuous_reject hi2c mode hm] at h
      exact absurd rfl h
  · intro h
    by_cases hm : mode = 0x20
    · exact Or.inl hm
    · rw [startSingle_reject hi2c mode hm] at h
      exact absurd rfl h

/-- Witness for the amended C8: mode `0x10` does change the history of an empty
bus, and it is a documented constant. -/
theorem C8_accepted_modes_are_documented_witness :
    (BHI1750StartContinuous ⟨[], fun _ _ => HAL_OK, fun _ _ => (HAL_OK, [])⟩ 0x10).2.calls ≠ []
    ∧ ((0x10 : Nat) = 0x10 ∨ (0x10 : Nat) = 0x11 ∨ (0x10 : Nat) = 0x12) :=
  ⟨by decide,
   (C8_accepted_modes_are_documented ⟨[], fun _ _ => HAL_OK, fun _ _ => (HAL_OK, [])⟩ 0x10).1
     (by decide)⟩

/-- C9: each validator accepts a single value.  For every 8-bit mode,
`BHI1750StartContinuous` appends a transmit call (one byte `mode`, to `0x46`,
timeout 20) if and only if `mode = 0x10`, and `BHI1750StartSingle` does so if and
only if `mode = 0x20`; for every other value, `0x11, 0x12, 0x21, 0x22` included,
the result is `HAL_ERROR` with the call history unchanged. -/
theorem C9_single_accepted_mode (hi2c : I2C_HandleTypeDef) (mode : Nat) (_hm : mode < 256) :
    ((BHI1750StartContinuous hi2c mode).2.calls =
        hi2c.calls ++ [I2CCall.transmit 0x46 [mode] 1 20] ↔ mode = 0x10)
    ∧ ((BHI1750StartSingle hi2c mode).2.calls =
        hi2c.calls ++ [I2CCall.transmit 0x46 [mode] 1 20] ↔ mode = 0x20)
    ∧ (mode ≠ 0x10 → (BHI1750StartContinuous hi2c mode).1 = HAL_ERROR
        ∧ (BHI1750StartContinuous hi2c mode).2.calls = hi2c.calls)
    ∧ (mode ≠ 0x20 → (BHI1750StartSingle hi2c mode).1 = HAL_ERROR
        ∧ (BHI1750StartSingle hi2c mode).2.calls = hi2c.calls) := by
  refine ⟨⟨?_, ?_⟩, ⟨?_, ?_⟩, ?_, ?_⟩
  · intro h
    by_contra hne
    rw [startContinuous_reject hi2c mode hne] at h
    exact calls_ne_append_one _ _ h
  · intro h
    subst h
    rw [startContinuous_accept]
    rfl
  · intro h
    by_contra hne
    rw [startSingle_reject hi2c mode hne] at h
    exact calls_ne_append_one _ _ h
  · intro h
    subst h
    rw [startSingle_accept]
    rfl
  · intro hne
    rw [startContinuous_reject hi2c mode hne]
    exact ⟨rfl, rfl⟩
  · intro hne
    rw [startSingle_reject hi2c mode hne]
    exact ⟨rfl, rfl⟩

/-- Witness for C9 at mode `0x11`: rejected by both validators. -/
theorem C9_single_accepted_mode_witness :
    ((BHI1750StartContinuous ⟨[], fun _ _ => HAL_OK, fun _ _ => (HAL_OK, [])⟩ 0x11).1 = HAL_ERROR
      ∧ (BHI1750StartContinuous ⟨[], fun _ _ => HAL_OK, fun _ _ => (HAL_OK, [])⟩ 0x11).2.calls = [])
    ∧ ((BHI1750StartSingle ⟨[], fun _ _ => HAL_OK, fun _ _ => (HAL_OK, [])⟩ 0x11).1 = HAL_ERROR
      ∧ (BHI1750StartSingle ⟨[], fun _ _ => HAL_OK, fun _ _ => (HAL_OK, [])⟩ 0x11).2.calls = []) :=
  ⟨(C9_single_accepted_mode ⟨[], fun _ _ => HAL_OK, fun _ _ => (HAL_OK, [])⟩ 0x11
      (by decide)).2.2.1 (by decide),
   (C9_single_accepted_mode ⟨[], fun _ _ => HAL_OK, fun _ _ => (HAL_OK, [])⟩ 0x11
      (by decide)).2.2.2 (by decide)⟩

/-! ## Reading the light value -/

/-- C5: when the transport answers the receive with `HAL_OK` and delivers the
bytes `b0, b1`, `BHI1750GetLightValueLx` appends exactly one call, a two-byte
receive from the read address `0x47` with timeout 20, and returns the C value of
`raw * 1.2` for the big-endian `raw = 256 * b0 + b1` (product in `double`,
narrowed to `float`).  That value is non-negative, has a 24-bit significand
(normalised when `raw` is not zero) and lies within half a unit in its last place
of the exact `raw * 6/5`: it is `raw * 1.2` correctly rounded to `float`.  For
the bytes `0x01, 0x90` it is exactly `480`, and for `0x02, 0x00` it is
`5033165 / 8192 = 614.4000244140625`, the `float` written `614.4`. -/
theorem C5_lux_is_raw_times_factor (hi2c : I2C_HandleTypeDef) (b0 b1 : Nat)
    (hb0 : b0 < 256) (hb1 : b1 < 256)
    (hrx : hi2c.onReceive hi2c.calls (I2CCall.receive 0x47 2 20) = (HAL_OK, [b0, b1])) :
    (BHI1750GetLightValueLx hi2c).2.calls = hi2c.calls ++ [I2CCall.receive 0x47 2 20]
    ∧ (BHI1750GetLightValueLx hi2c).1 =
        doubleToFloat (mulDouble (intToDouble (256 * b0 + b1)) BH1750_CONVERSION_FACTOR)
    ∧ (BHI1750GetLightValueLx hi2c).1.neg = false
    ∧ (BHI1750GetLightValueLx hi2c).1.mant < 2 ^ 24
    ∧ (256 * b0 + b1 ≠ 0 → 2 ^ 23 ≤ (BHI1750GetLightValueLx hi2c).1.mant)
    ∧ |(BHI1750GetLightValueLx hi2c).1.toRat - ((256 * b0 + b1 : Nat) : ℚ) * 6 / 5| * 2
        ≤ (2 : ℚ) ^ (BHI1750GetLightValueLx hi2c).1.exp
    ∧ (b0 = 0x01 → b1 = 0x90 → (BHI1750GetLightValueLx hi2c).1.toRat = 480)
    ∧ (b0 = 0x02 → b1 = 0x00 → (BHI1750GetLightValueLx hi2c).1.toRat = 5033165 / 8192) := by
  have hst : (hi2c.onReceive hi2c.calls (I2CCall.receive 0x47 2 20)).1 = HAL_OK := by rw [hrx]
  have hres : (BHI1750GetLightValueLx hi2c).1 =
      doubleToFloat (mulDouble (intToDouble (256 * b0 + b1)) BH1750_CONVERSION_FACTOR) := by
    rw [getLight_ok hi2c hst, hrx]
    simp only [List.getD_cons_zero, List.getD_cons_succ]
    rw [light_received_eq b0 b1 hb0 hb1]
  have hraw : 256 * b0 + b1 < 2 ^ 16 := by norm_num; omega
  refine ⟨?_, hres, ?_, ?_, ?_, ?_, ?_, ?_⟩
  · rw [getLight_ok hi2c hst]
  · rw [hres]; exact lux_neg _
  · rw [hres]
    by_cases h0 : 256 * b0 + b1 = 0
    · rw [h0, lux_zero]; norm_num
    · exact (lux_half_ulp _ h0 hraw).2.2.1
  · intro h0
    rw [hres]
    have h := (lux_half_ulp _ h0 hraw).2.1
    have e : (2 : ℕ) ^ 24 = 2 * 2 ^ 23 := by norm_num
    omega
  · rw [hres]
    by_cases h0 : 256 * b0 + b1 = 0
    · rw [h0, lux_zero]; norm_num [CFloat.toRat]
    · exact (lux_half_ulp _ h0 hraw).2.2.2.1
  · intro h0 h1
    subst h0 h1
    rw [hres, lux_400]
    norm_num [CFloat.toRat]
  · intro h0 h1
    subst h0 h1
    rw [hres, lux_512]
    norm_num [CFloat.toRat]

/-- Witness for C5 on a bus that delivers `0x01, 0x90` (raw 400): one receive
call, and the value returned is exactly `480`. -/
theorem C5_lux_is_raw_times_factor_witness :
    (BHI1750GetLightValueLx ⟨[], fun _ _ => HAL_OK, fun _ _ => (HAL_OK, [0x01, 0x90])⟩).2.calls
        = [] ++ [I2CCall.receive 0x47 2 20]
    ∧ (BHI1750GetLightValueLx ⟨[], fun _ _ => HAL_OK, fun _ _ => (HAL_OK, [0x01, 0x90])⟩).1.toRat
        = 480 :=
  ⟨(C5_lux_is_raw_times_factor ⟨[], fun _ _ => HAL_OK, fun _ _ => (HAL_OK, [0x01, 0x90])⟩
      0x01 0x90 (by decide) (by decide) rfl).1,
   (C5_lux_is_raw_times_factor ⟨[], fun _ _ => HAL_OK, fun _ _ => (HAL_OK, [0x01, 0x90])⟩
      0x01 0x90 (by decide) (by decide) rfl).2.2.2.2.2.2.1 rfl rfl⟩

/-- C6: the value returned by `BHI1750GetLightValueLx` is the sentinel `-1`
exactly when the receive call did not return `HAL_OK`.  For every other status
(`HAL_ERROR`, `HAL_BUSY`, `HAL_TIMEOUT`) the result is `-1` whatever the buffer
holds, and on `HAL_OK` the result is non-negative whatever bytes were received,
so it is never the sentinel. -/
theorem C6_sentinel_iff_not_ok (hi2c : I2C_HandleTypeDef) :
    ((BHI1750GetLightValueLx hi2c).1.toRat = -1 ↔
        (hi2c.onReceive hi2c.calls (I2CCall.receive 0x47 2 20)).1 ≠ HAL_OK)
    ∧ ((hi2c.onReceive hi2c.calls (I2CCall.receive 0x47 2 20)).1 = HAL_OK →
        0 ≤ (BHI1750GetLightValueLx hi2c).1.toRat)
    ∧ ((hi2c.onReceive hi2c.calls (I2CCall.receive 0x47 2 20)).1 = HAL_ERROR
        ∨ (hi2c.onReceive hi2c.calls (I2CCall.receive 0x47 2 20)).1 = HAL_BUSY
        ∨ (hi2c.onReceive hi2c.calls (I2CCall.receive 0x47 2 20)).1 = HAL_TIMEOUT →
        (BHI1750GetLightValueLx hi2c).1.toRat = -1) := by
  have hok : (hi2c.onReceive hi2c.calls (I2CCall.receive 0x47 2 20)).1 = HAL_OK →
      0 ≤ (BHI1750GetLightValueLx hi2c).1.toRat := by
    intro h
    rw [getLight_ok hi2c h]
    exact CFloat.toRat_nonneg _ (lux_neg _)
  have hfail : (hi2c.onReceive hi2c.calls (I2CCall.receive 0x47 2 20)).1 ≠ HAL_OK →
      (BHI1750GetLightValueLx hi2c).1.toRat = -1 := by
    intro h
    rw [getLight_fail hi2c h]
    exact sentinel_toRat
  refine ⟨⟨?_, hfail⟩, hok, ?_⟩
  · intro hval hst
    have := hok hst
    rw [hval] at this
    norm_num at this
  · intro h
    apply hfail
    rcases h with h | h | h <;> rw [h] <;> decide

/-- Witness for C6: a bus answering `HAL_TIMEOUT` with junk in the buffer gives
the sentinel, and a bus answering `HAL_OK` with `0xFF, 0xFF` gives a
non-negative value. -/
theorem C6_sentinel_iff_not_ok_witness :
    (BHI1750GetLightValueLx
        ⟨[], fun _ _ => HAL_OK, fun _ _ => (HAL_TIMEOUT, [0xAB, 0xCD])⟩).1.toRat = -1
    ∧ 0 ≤ (BHI1750GetLightValueLx
        ⟨[], fun _ _ => HAL_OK, fun _ _ => (HAL_OK, [0xFF, 0xFF])⟩).1.toRat :=
  ⟨(C6_sentinel_iff_not_ok ⟨[], fun _ _ => HAL_OK, fun _ _ => (HAL_TIMEOUT, [0xAB, 0xCD])⟩).2.2
      (Or.inr (Or.inr rfl)),
   (C6_sentinel_iff_not_ok ⟨[], fun _ _ => HAL_OK, fun _ _ => (HAL_OK, [0xFF, 0xFF])⟩).2.1 rfl⟩

end BH1750
